import Mathlib

/-!
Shallow embedding of the `dsp_app` waveform-synthesis crate
(`src/lib.rs`, `src/signals.rs`).

Conventions of the embedding:
* `f64` values are modelled as real numbers (`ℝ`); where overflow or IEEE
  specials would matter this is noted at the definition.
* Rust's `%` on `f64` is the remainder of truncated division; it is modelled
  by `rustRem` below.
* `usize` casts of a floored `f64` (`as usize`) truncate negative values to
  `0`; this is modelled by `Int.toNat` of the floor.
* Code that can panic (an `unwrap` on a distribution constructor, or the
  `low < high` requirement of `Uniform::new`) is modelled as returning
  `Except SignalError _`, with the panic as an `error` value.
* The random draws of the noise waveforms are modelled by explicit streams
  (`Nat → ℝ`, `Nat → Bool`): one draw per grid instant, in grid order,
  exactly as the `zip` with `sample_iter` performs them in the source.
-/

/-- A produced sample: `x` is the time in seconds, `y` the signal value.
Mirrors `struct CoordPair` in `src/lib.rs`. -/
structure CoordPair where
  x : ℝ
  y : ℝ

theorem CoordPair.ext_iff_xy (a b : CoordPair) : a = b ↔ a.x = b.x ∧ a.y = b.y := by
  cases a; cases b; simp

/-- Error conditions of the modelled fallible code paths: `emptyCollection`
for synthesis with no registered waveform (the `unwrap` of the empty max in
`get_signal`), `invalidParameter` for malformed distribution parameters (the
`Bernoulli::new(..).unwrap()` panic and the `low < high` requirement of
`Uniform::new`). -/
inductive SignalError where
  | emptyCollection
  | invalidParameter
  deriving Repr, DecidableEq

/-- The circle constant `τ = 2π`, mirroring `std::f64::consts::TAU`. -/
noncomputable def TAU : ℝ := 2 * Real.pi

/-- Truncation toward zero, the rounding used by Rust's `%` on `f64`. -/
noncomputable def truncTowardZero (x : ℝ) : ℤ :=
  if 0 ≤ x then ⌊x⌋ else ⌈x⌉

/-- Rust's `%` on `f64`: the remainder of truncated division,
`a % b = a - b * trunc (a / b)`.  (For `b = 0` the source produces NaN from
`a / 0.0 = ±inf` only when `a` is itself infinite; for finite `a` and an
infinite period — `signal_freq = 0` — Rust gives `a % inf = a`, which this
model also gives since `a / 0 = 0` and `trunc 0 = 0` in Lean.) -/
noncomputable def rustRem (a b : ℝ) : ℝ :=
  a - b * (truncTowardZero (a / b) : ℝ)

/-- `linspace_by_freq` from `src/lib.rs`: `step = freq.recip()`,
`points = ((end_point - starting_point) / step).floor() as usize`, and the
result is `starting_point + offset * step` for `offset` in `0..points`.
The `as usize` cast of the floored value is `Int.toNat` (negative values
clamp to `0`).  Stated over any linear ordered field with a floor so that
the rational instantiation stays executable. -/
def linspace_by_freq {K : Type} [LinearOrderedField K] [FloorRing K]
    (starting_point end_point freq : K) : List K :=
  let step := freq⁻¹
  let points := (⌊(end_point - starting_point) / step⌋).toNat
  (List.range points).map (fun (offset : ℕ) => starting_point + (offset : K) * step)

/-- `struct SineSignal` from `src/signals.rs`. -/
structure SineSignal where
  signal_freq : ℝ
  duration : ℝ
  start_offset : ℝ
  amplitude : ℝ
  phase_shift : ℝ

/-- `SineSignal::calculate_signal`: `y = amplitude * sin(signal_freq * TAU * point + phase_shift)`. -/
noncomputable def SineSignal.calculate_signal (s : SineSignal) (sampling_points : List ℝ) :
    List CoordPair :=
  sampling_points.map (fun point =>
    { x := point, y := s.amplitude * Real.sin (s.signal_freq * TAU * point + s.phase_shift) })

/-- `SineSignal::get_signal_end`. -/
def SineSignal.get_signal_end (s : SineSignal) : ℝ :=
  s.start_offset + s.duration

/-- `SineSignal::new` stores the parameters unchanged. -/
def SineSignal.new (signal_freq duration start_offset amplitude phase_shift : ℝ) : SineSignal :=
  ⟨signal_freq, duration, start_offset, amplitude, phase_shift⟩

/-- `struct HalfWaveRectifiedSineSignal`. -/
structure HalfWaveRectifiedSineSignal where
  inner_sine : SineSignal

/-- `HalfWaveRectifiedSineSignal::calculate_signal`: the inner sine's samples
with `y` clamped by `y.clamp(0.0, f64::MAX)`.  Every attainable sine output
is at most `f64::MAX`, so the upper clamp bound never bites and the clamp is
`max 0 y`. -/
noncomputable def HalfWaveRectifiedSineSignal.calculate_signal
    (s : HalfWaveRectifiedSineSignal) (sampling_points : List ℝ) : List CoordPair :=
  (s.inner_sine.calculate_signal sampling_points).map (fun sample =>
    { sample with y := max 0 sample.y })

/-- `HalfWaveRectifiedSineSignal::get_signal_end`. -/
def HalfWaveRectifiedSineSignal.get_signal_end (s : HalfWaveRectifiedSineSignal) : ℝ :=
  s.inner_sine.start_offset + s.inner_sine.duration

/-- `HalfWaveRectifiedSineSignal::new` builds the inner sine from the same parameters. -/
def HalfWaveRectifiedSineSignal.new
    (signal_freq duration start_offset amplitude phase_shift : ℝ) :
    HalfWaveRectifiedSineSignal :=
  ⟨⟨signal_freq, duration, start_offset, amplitude, phase_shift⟩⟩

/-- `struct FullWaveRectifiedSineSignal`. -/
structure FullWaveRectifiedSineSignal where
  inner_sine : SineSignal

/-- `FullWaveRectifiedSineSignal::calculate_signal`: the inner sine's samples
with `y` replaced by `y.abs()`. -/
noncomputable def FullWaveRectifiedSineSignal.calculate_signal
    (s : FullWaveRectifiedSineSignal) (sampling_points : List ℝ) : List CoordPair :=
  (s.inner_sine.calculate_signal sampling_points).map (fun sample =>
    { sample with y := |sample.y| })

/-- `FullWaveRectifiedSineSignal::get_signal_end`. -/
def FullWaveRectifiedSineSignal.get_signal_end (s : FullWaveRectifiedSineSignal) : ℝ :=
  s.inner_sine.start_offset + s.inner_sine.duration

/-- `FullWaveRectifiedSineSignal::new` builds the inner sine from the same parameters. -/
def FullWaveRectifiedSineSignal.new
    (signal_freq duration start_offset amplitude phase_shift : ℝ) :
    FullWaveRectifiedSineSignal :=
  ⟨⟨signal_freq, duration, start_offset, amplitude, phase_shift⟩⟩

/-- `struct UniformNoise`. -/
structure UniformNoise where
  duration : ℝ
  start_offset : ℝ
  amplitude : ℝ

/-- `UniformNoise::calculate_signal`: zips the sampling points with draws of
`Uniform::new(-amplitude, amplitude)`.  `Uniform::new(low, high)` panics
unless `low < high`, i.e. unless `-amplitude < amplitude`; that panic is the
`invalidParameter` error here.  The drawn values themselves come from the
ambient random source and are modelled by the stream `draws` (one draw per
grid instant, in grid order). -/
noncomputable def UniformNoise.calculate_signal (s : UniformNoise) (draws : ℕ → ℝ)
    (sampling_points : List ℝ) : Except SignalError (List CoordPair) :=
  if -s.amplitude < s.amplitude then
    .ok (sampling_points.enum.map (fun ip => { x := ip.2, y := draws ip.1 }))
  else
    .error .invalidParameter

/-- `UniformNoise::get_signal_end`. -/
def UniformNoise.get_signal_end (s : UniformNoise) : ℝ :=
  s.start_offset + s.duration

/-- `UniformNoise::new` stores the parameters unchanged. -/
def UniformNoise.new (duration start_offset amplitude : ℝ) : UniformNoise :=
  ⟨duration, start_offset, amplitude⟩

/-- `struct NormalNoise`. -/
structure NormalNoise where
  duration : ℝ
  start_offset : ℝ
  amplitude : ℝ

/-- `NormalNoise::calculate_signal`: zips the sampling points with
standard-normal draws scaled by `amplitude`; the draws are modelled by the
stream `draws`. -/
noncomputable def NormalNoise.calculate_signal (s : NormalNoise) (draws : ℕ → ℝ)
    (sampling_points : List ℝ) : List CoordPair :=
  sampling_points.enum.map (fun ip => { x := ip.2, y := draws ip.1 * s.amplitude })

/-- `NormalNoise::get_signal_end`. -/
def NormalNoise.get_signal_end (s : NormalNoise) : ℝ :=
  s.start_offset + s.duration

/-- `NormalNoise::new` stores the parameters unchanged. -/
def NormalNoise.new (duration start_offset amplitude : ℝ) : NormalNoise :=
  ⟨duration, start_offset, amplitude⟩

/-- `struct SymmetricRectangularSignal`. -/
structure SymmetricRectangularSignal where
  signal_freq : ℝ
  duration : ℝ
  start_offset : ℝ
  amplitude : ℝ
  duty_cycle : ℝ

/-- `SymmetricRectangularSignal::calculate_signal`:
`function_period = 1.0 / signal_freq`,
`flip_point_within_period = function_period * duty_cycle`,
`offset_within_period = point % function_period` (Rust `%`, see `rustRem`),
and the value is `-amplitude` when `offset_within_period > flip_point_within_period`,
else `amplitude`. -/
noncomputable def SymmetricRectangularSignal.calculate_signal
    (s : SymmetricRectangularSignal) (sampling_points : List ℝ) : List CoordPair :=
  let function_period := 1 / s.signal_freq
  let flip_point_within_period := function_period * s.duty_cycle
  sampling_points.map (fun point =>
    { x := point,
      y := if rustRem point function_period > flip_point_within_period then
             -s.amplitude
           else
             s.amplitude })

/-- `SymmetricRectangularSignal::get_signal_end`. -/
def SymmetricRectangularSignal.get_signal_end (s : SymmetricRectangularSignal) : ℝ :=
  s.start_offset + s.duration

/-- `SymmetricRectangularSignal::new` stores the parameters unchanged. -/
def SymmetricRectangularSignal.new
    (signal_freq duration start_offset amplitude duty_cycle : ℝ) :
    SymmetricRectangularSignal :=
  ⟨signal_freq, duration, start_offset, amplitude, duty_cycle⟩

/-- `struct RectangularSignal` wraps a `SymmetricRectangularSignal`. -/
structure RectangularSignal where
  inner_signal : SymmetricRectangularSignal

/-- `RectangularSignal::calculate_signal`: the symmetric rectangular samples
with `y` clamped by `y.clamp(0.0, f64::MAX)` (as for the half-wave rectifier,
`max 0 y`). -/
noncomputable def RectangularSignal.calculate_signal
    (s : RectangularSignal) (sampling_points : List ℝ) : List CoordPair :=
  (s.inner_signal.calculate_signal sampling_points).map (fun point =>
    { point with y := max 0 point.y })

/-- `RectangularSignal::get_signal_end`. -/
def RectangularSignal.get_signal_end (s : RectangularSignal) : ℝ :=
  s.inner_signal.start_offset + s.inner_signal.duration

/-- `RectangularSignal::new` builds the inner symmetric signal from the same parameters. -/
def RectangularSignal.new
    (signal_freq duration start_offset amplitude duty_cycle : ℝ) : RectangularSignal :=
  ⟨⟨signal_freq, duration, start_offset, amplitude, duty_cycle⟩⟩

/-- `struct TriangularSignal`. -/
structure TriangularSignal where
  signal_freq : ℝ
  duration : ℝ
  start_offset : ℝ
  amplitude : ℝ
  duty_cycle : ℝ

/-- `TriangularSignal::calculate_signal`: `function_period = signal_freq.recip()`,
`flip_point_within_period = function_period * duty_cycle`,
`offset_within_period = point % function_period`, and the value is
`part_of_wave_side * amplitude` with
`part_of_wave_side = (offset - flip) / (period - flip)` past the flip point and
`1 - offset / flip` before it. -/
noncomputable def TriangularSignal.calculate_signal
    (s : TriangularSignal) (sampling_points : List ℝ) : List CoordPair :=
  let function_period := s.signal_freq⁻¹
  let flip_point_within_period := function_period * s.duty_cycle
  sampling_points.map (fun point =>
    let offset_within_period := rustRem point function_period
    let part_of_wave_side :=
      if offset_within_period > flip_point_within_period then
        (offset_within_period - flip_point_within_period) /
          (function_period - flip_point_within_period)
      else
        1 - offset_within_period / flip_point_within_period
    { x := point, y := part_of_wave_side * s.amplitude })

/-- `TriangularSignal::get_signal_end`. -/
def TriangularSignal.get_signal_end (s : TriangularSignal) : ℝ :=
  s.start_offset + s.duration

/-- `TriangularSignal::new` stores the parameters unchanged. -/
def TriangularSignal.new
    (signal_freq duration start_offset amplitude duty_cycle : ℝ) : TriangularSignal :=
  ⟨signal_freq, duration, start_offset, amplitude, duty_cycle⟩

/-- `struct UnitJump`. -/
structure UnitJump where
  flip_offset : ℝ
  duration : ℝ
  start_offset : ℝ
  amplitude : ℝ

/-- `UnitJump::calculate_signal`: `global_flip_point = start_offset + flip_offset`;
the value is `amplitude` when `point > global_flip_point`, else `0`. -/
noncomputable def UnitJump.calculate_signal (s : UnitJump) (sampling_points : List ℝ) :
    List CoordPair :=
  let global_flip_point := s.start_offset + s.flip_offset
  sampling_points.map (fun point =>
    { x := point, y := if point > global_flip_point then s.amplitude else 0 })

/-- `UnitJump::get_signal_end`. -/
def UnitJump.get_signal_end (s : UnitJump) : ℝ :=
  s.start_offset + s.duration

/-- `UnitJump::new` stores the parameters unchanged. -/
def UnitJump.new (flip_offset duration start_offset amplitude : ℝ) : UnitJump :=
  ⟨flip_offset, duration, start_offset, amplitude⟩

/-- `struct UnitPulse`. -/
structure UnitPulse where
  time_offset : ℝ
  duration : ℝ
  start_offset : ℝ
  amplitude : ℝ

/-- One iteration of the scan loop in `UnitPulse::calculate_signal`.  The
state is `(smallest_diff_so_far, smallest_diff_time)`; the initial
`smallest_diff_so_far = f64::MAX` is modelled as `none` (every real distance
compares below it, so the first point always installs itself, exactly as in
the source for any inputs whose distance is below `f64::MAX`). -/
noncomputable def pulseStep (target : ℝ) (st : Option ℝ × ℝ) (point : ℝ) : Option ℝ × ℝ :=
  match st.1 with
  | none => (some |target - point|, point)
  | some d => if |target - point| < d then (some |target - point|, point) else st

/-- The first loop of `UnitPulse::calculate_signal`: the sampling instant
with the smallest absolute distance to the global flip point, first found
winning ties; `smallest_diff_time` starts at `0.0`. -/
noncomputable def UnitPulse.smallest_diff_time (s : UnitPulse) (sampling_points : List ℝ) : ℝ :=
  (sampling_points.foldl (pulseStep (s.start_offset + s.time_offset)) (none, 0)).2

/-- `UnitPulse::calculate_signal`: every sampling point equal to the scanned
`smallest_diff_time` gets `amplitude`, all others `0`. -/
noncomputable def UnitPulse.calculate_signal (s : UnitPulse) (sampling_points : List ℝ) :
    List CoordPair :=
  let smallest := s.smallest_diff_time sampling_points
  sampling_points.map (fun point =>
    { x := point, y := if point = smallest then s.amplitude else 0 })

/-- `UnitPulse::get_signal_end`. -/
def UnitPulse.get_signal_end (s : UnitPulse) : ℝ :=
  s.start_offset + s.duration

/-- `UnitPulse::new` stores the parameters unchanged. -/
def UnitPulse.new (time_offset duration start_offset amplitude : ℝ) : UnitPulse :=
  ⟨time_offset, duration, start_offset, amplitude⟩

/-- `struct UnitNoise`. -/
structure UnitNoise where
  probability : ℝ
  duration : ℝ
  start_offset : ℝ
  amplitude : ℝ

/-- `UnitNoise::calculate_signal`: zips the sampling points with draws of
`Bernoulli::new(probability).unwrap()`.  `Bernoulli::new(p)` is `Err` exactly
when `p < 0` or `p > 1` (`p = 1` is accepted), so the `unwrap` panics then;
that panic is the `invalidParameter` error here.  The Boolean draws are
modelled by the stream `draws`; a `true` draw yields `amplitude`, else `0`. -/
noncomputable def UnitNoise.calculate_signal (s : UnitNoise) (draws : ℕ → Bool)
    (sampling_points : List ℝ) : Except SignalError (List CoordPair) :=
  if 0 ≤ s.probability ∧ s.probability ≤ 1 then
    .ok (sampling_points.enum.map (fun ip =>
      { x := ip.2, y := if draws ip.1 then s.amplitude else 0 }))
  else
    .error .invalidParameter

/-- `UnitNoise::get_signal_end`. -/
def UnitNoise.get_signal_end (s : UnitNoise) : ℝ :=
  s.start_offset + s.duration

/-- `UnitNoise::new` stores the parameters unchanged — no validation of
`probability` happens at construction. -/
def UnitNoise.new (probability duration start_offset amplitude : ℝ) : UnitNoise :=
  ⟨probability, duration, start_offset, amplitude⟩

/-- The ambient random source of the noise waveforms, made explicit: a stream
of real draws (uniform / standard-normal sampling) and a stream of Boolean
draws (Bernoulli sampling), consumed one draw per grid instant in grid
order. -/
structure NoiseEnv where
  realDraws : ℕ → ℝ
  boolDraws : ℕ → Bool

/-- The closed set of waveform variants registered through the `add_*`
methods of `SignalProcessor` in `src/lib.rs` (the trait objects behind
`dyn CalculableSignal`). -/
inductive Signal where
  | sine (s : SineSignal)
  | halfWave (s : HalfWaveRectifiedSineSignal)
  | fullWave (s : FullWaveRectifiedSineSignal)
  | uniformNoise (s : UniformNoise)
  | normalNoise (s : NormalNoise)
  | rectangular (s : RectangularSignal)
  | symmetricRectangular (s : SymmetricRectangularSignal)
  | triangular (s : TriangularSignal)
  | unitJump (s : UnitJump)
  | unitPulse (s : UnitPulse)
  | unitNoise (s : UnitNoise)

/-- Dynamic dispatch of `CalculableSignal::calculate_signal`.  The variants
that can panic surface `Except.error`; all others always succeed. -/
noncomputable def Signal.calculate_signal (env : NoiseEnv) :
    Signal → List ℝ → Except SignalError (List CoordPair)
  | .sine s, pts => .ok (s.calculate_signal pts)
  | .halfWave s, pts => .ok (s.calculate_signal pts)
  | .fullWave s, pts => .ok (s.calculate_signal pts)
  | .uniformNoise s, pts => s.calculate_signal env.realDraws pts
  | .normalNoise s, pts => .ok (s.calculate_signal env.realDraws pts)
  | .rectangular s, pts => .ok (s.calculate_signal pts)
  | .symmetricRectangular s, pts => .ok (s.calculate_signal pts)
  | .triangular s, pts => .ok (s.calculate_signal pts)
  | .unitJump s, pts => .ok (s.calculate_signal pts)
  | .unitPulse s, pts => .ok (s.calculate_signal pts)
  | .unitNoise s, pts => s.calculate_signal env.boolDraws pts

/-- Dynamic dispatch of `CalculableSignal::get_signal_end`. -/
def Signal.get_signal_end : Signal → ℝ
  | .sine s => s.get_signal_end
  | .halfWave s => s.get_signal_end
  | .fullWave s => s.get_signal_end
  | .uniformNoise s => s.get_signal_end
  | .normalNoise s => s.get_signal_end
  | .rectangular s => s.get_signal_end
  | .symmetricRectangular s => s.get_signal_end
  | .triangular s => s.get_signal_end
  | .unitJump s => s.get_signal_end
  | .unitPulse s => s.get_signal_end
  | .unitNoise s => s.get_signal_end

/-- `struct SignalProcessor` from `src/lib.rs`. -/
structure SignalProcessor where
  sampling_frequency : ℝ
  starting_time : ℝ
  signals : List Signal

/-- The `max_by` over `signals.iter().map(get_signal_end)` for a nonempty
collection: the maximal end time.  (Over the reals `partial_cmp` is total,
so the inner `unwrap` never fires; `max_by` returns the last maximal
element, and only its value — our fold of `max` — is used.) -/
def maxSignalEnd (s0 : Signal) (rest : List Signal) : ℝ :=
  rest.foldl (fun acc s => max acc s.get_signal_end) s0.get_signal_end

/-- `SignalProcessor::get_signal`: the max end time over all registered
waveforms sizes the grid (`unwrap` on the empty collection panics — the
`emptyCollection` error), the grid is `linspace_by_freq` from
`starting_time` to `starting_time + signal_duration`, and only
`signals[0]` is sampled. -/
noncomputable def SignalProcessor.get_signal (env : NoiseEnv) (self : SignalProcessor) :
    Except SignalError (List CoordPair) :=
  match self.signals with
  | [] => .error .emptyCollection
  | s0 :: rest =>
    let signal_duration := maxSignalEnd s0 rest
    let ending_point := self.starting_time + signal_duration
    let sampling_points :=
      linspace_by_freq self.starting_time ending_point self.sampling_frequency
    s0.calculate_signal env sampling_points

/-! ## Helper lemmas -/

theorem map_x_mk_map (f : ℝ → ℝ) (pts : List ℝ) :
    (pts.map (fun point => CoordPair.mk point (f point))).map CoordPair.x = pts := by
  rw [List.map_map]
  have h : (CoordPair.x ∘ fun point => CoordPair.mk point (f point)) = id := rfl
  rw [h, List.map_id]

theorem map_comp_x (pts : List ℝ) (G : ℝ → CoordPair) (hG : ∀ p, (G p).x = p) :
    List.map (CoordPair.x ∘ G) pts = pts := by
  have h : CoordPair.x ∘ G = id := funext hG
  rw [h, List.map_id]

theorem map_x_enum (pts : List ℝ) (G : ℕ × ℝ → CoordPair) (hG : ∀ ip, (G ip).x = ip.2) :
    (pts.enum.map G).map CoordPair.x = pts := by
  rw [List.map_map]
  have h : CoordPair.x ∘ G = Prod.snd := funext hG
  rw [h, List.enum_map_snd]

theorem calc_map_x (env : NoiseEnv) (sig : Signal) (pts : List ℝ) (out : List CoordPair)
    (h : sig.calculate_signal env pts = .ok out) : out.map CoordPair.x = pts := by
  cases sig with
  | sine s =>
    simp only [Signal.calculate_signal, Except.ok.injEq] at h
    subst h
    exact map_x_mk_map _ pts
  | halfWave s =>
    simp only [Signal.calculate_signal, Except.ok.injEq] at h
    subst h
    simp only [HalfWaveRectifiedSineSignal.calculate_signal, SineSignal.calculate_signal,
      List.map_map]
    exact map_comp_x pts _ (fun p => rfl)
  | fullWave s =>
    simp only [Signal.calculate_signal, Except.ok.injEq] at h
    subst h
    simp only [FullWaveRectifiedSineSignal.calculate_signal, SineSignal.calculate_signal,
      List.map_map]
    exact map_comp_x pts _ (fun p => rfl)
  | uniformNoise s =>
    simp only [Signal.calculate_signal, UniformNoise.calculate_signal] at h
    split at h
    · simp only [Except.ok.injEq] at h
      subst h
      exact map_x_enum pts _ (fun ip => rfl)
    · simp at h
  | normalNoise s =>
    simp only [Signal.calculate_signal, Except.ok.injEq] at h
    subst h
    simp only [NormalNoise.calculate_signal]
    exact map_x_enum pts _ (fun ip => rfl)
  | rectangular s =>
    simp only [Signal.calculate_signal, Except.ok.injEq] at h
    subst h
    simp only [RectangularSignal.calculate_signal, SymmetricRectangularSignal.calculate_signal,
      List.map_map]
    exact map_comp_x pts _ (fun p => rfl)
  | symmetricRectangular s =>
    simp only [Signal.calculate_signal, Except.ok.injEq] at h
    subst h
    simp only [SymmetricRectangularSignal.calculate_signal]
    exact map_x_mk_map _ pts
  | triangular s =>
    simp only [Signal.calculate_signal, Except.ok.injEq] at h
    subst h
    simp only [TriangularSignal.calculate_signal]
    exact map_x_mk_map _ pts
  | unitJump s =>
    simp only [Signal.calculate_signal, Except.ok.injEq] at h
    subst h
    simp only [UnitJump.calculate_signal]
    exact map_x_mk_map _ pts
  | unitPulse s =>
    simp only [Signal.calculate_signal, Except.ok.injEq] at h
    subst h
    simp only [UnitPulse.calculate_signal]
    exact map_x_mk_map _ pts
  | unitNoise s =>
    simp only [Signal.calculate_signal, UnitNoise.calculate_signal] at h
    split at h
    · simp only [Except.ok.injEq] at h
      subst h
      exact map_x_enum pts _ (fun ip => rfl)
    · simp at h

theorem calc_length (env : NoiseEnv) (sig : Signal) (pts : List ℝ) (out : List CoordPair)
    (h : sig.calculate_signal env pts = .ok out) : out.length = pts.length := by
  have hx := calc_map_x env sig pts out h
  calc out.length = (out.map CoordPair.x).length := (List.length_map out CoordPair.x).symm
    _ = pts.length := by rw [hx]

/-! ## Claims -/

/-- C9: for every waveform variant and every list of sampling instants, a
successful `calculate_signal` returns exactly one `(time, value)` pair per
input instant, with the time component equal to that instant and the pairs
in input order — the sampling instants are arbitrary (in particular they may
lie outside the waveform's own window `[start_offset, start_offset + duration)`),
and the end time is never used to clip or omit samples. -/
theorem claim_C9 (env : NoiseEnv) (sig : Signal) (pts : List ℝ) (out : List CoordPair)
    (h : sig.calculate_signal env pts = .ok out) :
    out.length = pts.length ∧ out.map CoordPair.x = pts :=
  ⟨calc_length env sig pts out h, calc_map_x env sig pts out h⟩

/-- C9 witness: a unit jump sampled at the single instant `5`, far outside its
own window `[0, 1)`, still yields exactly one sample at time `5`. -/
theorem claim_C9_witness :
    ([CoordPair.mk 5 1].length = ([5] : List ℝ).length) ∧
      [CoordPair.mk 5 1].map CoordPair.x = ([5] : List ℝ) :=
  claim_C9 ⟨fun _ => 0, fun _ => false⟩ (.unitJump (UnitJump.new (1/2) 1 0 1)) [5]
    [CoordPair.mk 5 1]
    (by norm_num [Signal.calculate_signal, UnitJump.calculate_signal, UnitJump.new])

/-- C3: synthesis over an empty waveform collection fails with the
`emptyCollection` condition (the `unwrap` of the empty maximum in
`get_signal`), and with no other failure mode. -/
theorem claim_C3 (env : NoiseEnv) (f st : ℝ) :
    SignalProcessor.get_signal env ⟨f, st, []⟩ = .error .emptyCollection := rfl

/-- C1: with at least one registered waveform, `get_signal` samples exactly
the first registered waveform against the full grid built over
`[starting_time, starting_time + max end time over all registered waveforms)`
at `sampling_frequency`, returns precisely its samples, and the number of
returned samples equals the length of that grid — no matter how many
waveforms are registered. -/
theorem claim_C1 (env : NoiseEnv) (f st : ℝ) (s0 : Signal) (rest : List Signal) :
    SignalProcessor.get_signal env ⟨f, st, s0 :: rest⟩ =
      s0.calculate_signal env (linspace_by_freq st (st + maxSignalEnd s0 rest) f) ∧
    ∀ out,
      s0.calculate_signal env (linspace_by_freq st (st + maxSignalEnd s0 rest) f) = .ok out →
      out.length = (linspace_by_freq st (st + maxSignalEnd s0 rest) f).length := by
  refine ⟨rfl, ?_⟩
  intro out h
  exact calc_length env s0 _ out h

/-- C1 witness: two registered unit jumps; the grid is sized by the larger
end time (2 s) of the *second* waveform, yet only the first is sampled, and
the sample count equals the grid length. -/
theorem claim_C1_witness :
    [CoordPair.mk 0 0, CoordPair.mk 1 1].length =
      (linspace_by_freq (0:ℝ)
        (0 + maxSignalEnd (.unitJump (UnitJump.new (1/2) 1 0 1))
          [.unitJump (UnitJump.new 0 2 0 1)]) 1).length :=
  (claim_C1 ⟨fun _ => 0, fun _ => false⟩ 1 0 (.unitJump (UnitJump.new (1/2) 1 0 1))
      [.unitJump (UnitJump.new 0 2 0 1)]).2 [CoordPair.mk 0 0, CoordPair.mk 1 1]
    (by
      have htn : ((2 : ℤ).toNat) = 2 := rfl
      norm_num [Signal.calculate_signal, UnitJump.calculate_signal, UnitJump.new,
        linspace_by_freq, maxSignalEnd, Signal.get_signal_end, UnitJump.get_signal_end,
        max_def, htn, List.range_succ])

/-- C4 counterexample: `UnitNoise::new` with probability `2` (outside `[0,1]`)
succeeds — it returns a waveform with the invalid probability stored — and
the `invalidParameter` failure only surfaces later, at a sampling call. -/
theorem claim_C4_counterexample :
    UnitNoise.new 2 1 0 1 = ⟨2, 1, 0, 1⟩ ∧
      (UnitNoise.new 2 1 0 1).calculate_signal (fun _ => true) [0] =
        .error .invalidParameter := by
  refine ⟨rfl, ?_⟩
  norm_num [UnitNoise.new, UnitNoise.calculate_signal]

/-- C4 (amended): for every probability outside `[0,1]`, construction of the
Bernoulli (unit) noise waveform succeeds — the parameters are stored
unvalidated — and the `invalidParameter` failure is deferred to the sampling
call, where `calculate_signal` fails on every input. -/
theorem claim_C4_amended (p d so a : ℝ) (hp : p < 0 ∨ 1 < p) (draws : ℕ → Bool)
    (pts : List ℝ) :
    (UnitNoise.new p d so a).probability = p ∧
      (UnitNoise.new p d so a).calculate_signal draws pts = .error .invalidParameter := by
  refine ⟨rfl, ?_⟩
  have hnp : ¬ (0 ≤ p ∧ p ≤ 1) := by
    rcases hp with h | h
    · rintro ⟨h1, h2⟩
      linarith
    · rintro ⟨h1, h2⟩
      linarith
  simp [UnitNoise.new, UnitNoise.calculate_signal, hnp]

/-- C4 witness: probability `2` is outside `[0,1]` and the amended behavior
holds there. -/
theorem claim_C4_witness :
    ((2:ℝ) < 0 ∨ (1:ℝ) < 2) ∧
      (UnitNoise.new 2 1 0 1).calculate_signal (fun _ => false) [0] =
        .error .invalidParameter :=
  ⟨Or.inr (by norm_num),
    (claim_C4_amended 2 1 0 1 (Or.inr (by norm_num)) (fun _ => false) [0]).2⟩

/-- C7: every sample of the unit jump waveform keeps its sampling instant as
time and carries `amplitude` exactly when the instant is strictly greater
than the global flip instant `start_offset + flip_offset`, else `0`; in
particular a sample taken exactly at the flip instant reads `0`. -/
theorem claim_C7 (s : UnitJump) (pts : List ℝ) (i : ℕ) (hi : i < pts.length) :
    ∃ hi2 : i < (s.calculate_signal pts).length,
      ((s.calculate_signal pts).get ⟨i, hi2⟩).x = pts.get ⟨i, hi⟩ ∧
      ((s.calculate_signal pts).get ⟨i, hi2⟩).y =
        (if s.start_offset + s.flip_offset < pts.get ⟨i, hi⟩ then s.amplitude else 0) ∧
      (pts.get ⟨i, hi⟩ = s.start_offset + s.flip_offset →
        ((s.calculate_signal pts).get ⟨i, hi2⟩).y = 0) := by
  have hlen : (s.calculate_signal pts).length = pts.length := by
    simp [UnitJump.calculate_signal]
  refine ⟨by rw [hlen]; exact hi, ?_, ?_, ?_⟩
  · simp [UnitJump.calculate_signal]
  · simp [UnitJump.calculate_signal, gt_iff_lt]
  · intro hflip
    rw [List.get_eq_getElem] at hflip
    simp [UnitJump.calculate_signal, hflip]

/-- C7 witness: flip offset `1/2`, start offset `0`; the sample at `t = 1/2`
(the flip instant itself) reads `0`, while the strict-inequality formula
governs each sample. -/
theorem claim_C7_witness :
    ∃ hi2 : 0 < ((UnitJump.new (1/2) 1 0 7).calculate_signal [1/2, 1]).length,
      (((UnitJump.new (1/2) 1 0 7).calculate_signal [1/2, 1]).get ⟨0, hi2⟩).x =
        ([1/2, 1] : List ℝ).get ⟨0, by norm_num⟩ ∧
      (((UnitJump.new (1/2) 1 0 7).calculate_signal [1/2, 1]).get ⟨0, hi2⟩).y =
        (if (UnitJump.new (1/2) 1 0 7).start_offset + (UnitJump.new (1/2) 1 0 7).flip_offset <
            ([1/2, 1] : List ℝ).get ⟨0, by norm_num⟩ then (UnitJump.new (1/2) 1 0 7).amplitude
          else 0) ∧
      (([1/2, 1] : List ℝ).get ⟨0, by norm_num⟩ =
          (UnitJump.new (1/2) 1 0 7).start_offset + (UnitJump.new (1/2) 1 0 7).flip_offset →
        (((UnitJump.new (1/2) 1 0 7).calculate_signal [1/2, 1]).get ⟨0, hi2⟩).y = 0) :=
  claim_C7 (UnitJump.new (1/2) 1 0 7) [1/2, 1] 0 (by norm_num)

/-- C8: for every parameter set and every list of sampling instants, the
half-wave rectified sine never yields a negative value, and the full-wave
rectified sine never yields a negative value and equals the absolute value
of the corresponding plain sine waveform pointwise (same times, absolute
values). -/
theorem claim_C8 (fr d so a ph : ℝ) (pts : List ℝ) :
    (∀ c ∈ (HalfWaveRectifiedSineSignal.new fr d so a ph).calculate_signal pts, 0 ≤ c.y) ∧
    (∀ c ∈ (FullWaveRectifiedSineSignal.new fr d so a ph).calculate_signal pts, 0 ≤ c.y) ∧
    ((FullWaveRectifiedSineSignal.new fr d so a ph).calculate_signal pts).map CoordPair.x =
      ((SineSignal.new fr d so a ph).calculate_signal pts).map CoordPair.x ∧
    ((FullWaveRectifiedSineSignal.new fr d so a ph).calculate_signal pts).map CoordPair.y =
      ((SineSignal.new fr d so a ph).calculate_signal pts).map (fun c => |c.y|) := by
  refine ⟨?_, ?_, ?_, ?_⟩
  · intro c hc
    simp only [HalfWaveRectifiedSineSignal.calculate_signal, HalfWaveRectifiedSineSignal.new,
      SineSignal.calculate_signal, List.map_map, List.mem_map] at hc
    obtain ⟨p, hp, rfl⟩ := hc
    exact le_max_left 0 _
  · intro c hc
    simp only [FullWaveRectifiedSineSignal.calculate_signal, FullWaveRectifiedSineSignal.new,
      SineSignal.calculate_signal, List.map_map, List.mem_map] at hc
    obtain ⟨p, hp, rfl⟩ := hc
    exact abs_nonneg _
  · simp only [FullWaveRectifiedSineSignal.calculate_signal, FullWaveRectifiedSineSignal.new,
      SineSignal.calculate_signal, SineSignal.new, List.map_map]
    rfl
  · simp only [FullWaveRectifiedSineSignal.calculate_signal, FullWaveRectifiedSineSignal.new,
      SineSignal.calculate_signal, SineSignal.new, List.map_map]
    rfl

/-- C8 witness: with unit parameters and the single instant `0`, the
half-wave rectified sample value is nonnegative. -/
theorem claim_C8_witness :
    0 ≤ (CoordPair.mk 0 (max 0 (1 * Real.sin (1 * TAU * 0 + 0)))).y :=
  (claim_C8 1 1 0 1 0 [0]).1 (CoordPair.mk 0 (max 0 (1 * Real.sin (1 * TAU * 0 + 0))))
    (by simp [HalfWaveRectifiedSineSignal.new, HalfWaveRectifiedSineSignal.calculate_signal,
      SineSignal.calculate_signal])

/-- C2: for `frequency > 0` the time grid has length
`⌊(end - start) * frequency⌋` clamped at `0` (so `end ≤ start` yields the
empty grid), its `i`-th element is `start + i / frequency`, and the end
instant is never included. -/
theorem claim_C2 {K : Type} [LinearOrderedField K] [FloorRing K] (s e f : K) (hf : 0 < f) :
    linspace_by_freq s e f =
      (List.range ((⌊(e - s) * f⌋).toNat)).map (fun (i : ℕ) => s + (i : K) / f) ∧
    (linspace_by_freq s e f).length = (⌊(e - s) * f⌋).toNat ∧
    (∀ x ∈ linspace_by_freq s e f, x < e) ∧
    (e ≤ s → linspace_by_freq s e f = []) := by
  have hf0 : f ≠ 0 := ne_of_gt hf
  have hkey : (e - s) / f⁻¹ = (e - s) * f := by rw [div_eq_mul_inv, inv_inv]
  have hunf : linspace_by_freq s e f =
      (List.range ((⌊(e - s) / f⁻¹⌋).toNat)).map
        (fun (offset : ℕ) => s + (offset : K) * f⁻¹) := rfl
  have hA : linspace_by_freq s e f =
      (List.range ((⌊(e - s) * f⌋).toNat)).map (fun (i : ℕ) => s + (i : K) / f) := by
    rw [hunf, hkey]
    simp only [div_eq_mul_inv]
  refine ⟨hA, ?_, ?_, ?_⟩
  · rw [hA, List.length_map, List.length_range]
  · intro x hx
    rw [hA] at hx
    obtain ⟨i, hir, rfl⟩ := List.mem_map.mp hx
    have hi : i < (⌊(e - s) * f⌋).toNat := List.mem_range.mp hir
    have h1 : (i : ℤ) < ⌊(e - s) * f⌋ := Int.lt_toNat.mp hi
    have h2 : ((i : ℤ) : K) < (e - s) * f :=
      lt_of_lt_of_le (Int.cast_lt.mpr h1) (Int.floor_le _)
    have h2k : (i : K) < (e - s) * f := by exact_mod_cast h2
    have h3 : (i : K) / f < ((e - s) * f) / f := by
      rw [div_eq_mul_inv, div_eq_mul_inv]
      exact mul_lt_mul_of_pos_right h2k (inv_pos.mpr hf)
    have h4 : ((e - s) * f) / f = e - s := mul_div_cancel_right₀ _ hf0
    linarith
  · intro hes
    have h1 : (e - s) * f ≤ 0 := mul_nonpos_iff.mpr (Or.inr ⟨by linarith, hf.le⟩)
    have h2 : ⌊(e - s) * f⌋ ≤ 0 := Int.floor_nonpos h1
    rw [hA, Int.toNat_of_nonpos h2]
    rfl

/-- C2 witness: `build(0, 1, 10)` over `ℚ` has exactly `10` points. -/
theorem claim_C2_witness :
    (0:ℚ) < 10 ∧ (linspace_by_freq (0:ℚ) 1 10).length = 10 := by
  refine ⟨by norm_num, ?_⟩
  rw [(claim_C2 (0:ℚ) 1 10 (by norm_num)).2.1]
  have h10 : ((1:ℚ) - 0) * 10 = ((10 : ℤ) : ℚ) := by norm_num
  rw [h10, Int.floor_intCast]
  rfl

/-- C5 counterexample: the time grid builder does not fail for
`frequency ≤ 0` — at `build(0, 1, 0)` it returns the well-defined empty
sequence, and at `build(1, 0, -1)` (negative frequency, end before start) it
even returns a nonempty grid; no `InvalidParameter` condition exists on this
path. -/
theorem claim_C5_counterexample :
    linspace_by_freq (0:ℚ) 1 0 = [] ∧ linspace_by_freq (1:ℚ) 0 (-1) = [1] := by
  constructor
  · norm_num [linspace_by_freq]
  · norm_num [linspace_by_freq, List.range_succ]

/-- C5 (amended): for every `frequency ≤ 0` the time grid builder does not
fail with any error condition: it totally computes the same formula, and
whenever additionally `start ≤ end` the result is the (silently) empty
sequence. -/
theorem claim_C5_amended {K : Type} [LinearOrderedField K] [FloorRing K]
    (s e f : K) (hf : f ≤ 0) (hse : s ≤ e) : linspace_by_freq s e f = [] := by
  rcases hf.eq_or_lt with h0 | hneg
  · subst h0
    simp [linspace_by_freq]
  · have hkey : (e - s) / f⁻¹ = (e - s) * f := by rw [div_eq_mul_inv, inv_inv]
    have h1 : (e - s) * f ≤ 0 := mul_nonpos_iff.mpr (Or.inl ⟨by linarith, hneg.le⟩)
    have h2 : ⌊(e - s) * f⌋ ≤ 0 := Int.floor_nonpos h1
    simp [linspace_by_freq, hkey, Int.toNat_of_nonpos h2]

/-- C5 witness: frequency `-1 ≤ 0` with `start ≤ end` silently yields the
empty grid. -/
theorem claim_C5_witness :
    ((-1 : ℚ) ≤ 0 ∧ (0:ℚ) ≤ 1) ∧ linspace_by_freq (0:ℚ) 1 (-1) = [] :=
  ⟨⟨by norm_num, by norm_num⟩, claim_C5_amended 0 1 (-1) (by norm_num) (by norm_num)⟩

/-- C10: for every sampling instant `t < 0` that is not an exact integer
multiple of the period `P = 1 / signal_freq` (with positive frequency), and
every `duty_cycle ≥ 0`, the symmetric rectangular waveform yields
`+amplitude`: Rust's `%` gives a nonpositive remainder for negative `t`,
which is never strictly greater than the nonnegative flip point
`P * duty_cycle`. -/
theorem claim_C10 (s : SymmetricRectangularSignal) (t : ℝ) (hf : 0 < s.signal_freq)
    (ht : t < 0) (_hnm : ¬ ∃ k : ℤ, t = (k : ℝ) * (1 / s.signal_freq))
    (hd : 0 ≤ s.duty_cycle) :
    s.calculate_signal [t] = [⟨t, s.amplitude⟩] := by
  have hP : 0 < 1 / s.signal_freq := by positivity
  have hfne : s.signal_freq ≠ 0 := ne_of_gt hf
  have hdivneg : t / (1 / s.signal_freq) < 0 := div_neg_of_neg_of_pos ht hP
  have hoff : rustRem t (1 / s.signal_freq) ≤ 0 := by
    unfold rustRem truncTowardZero
    rw [if_neg (not_le.mpr hdivneg)]
    have h1 : t / (1 / s.signal_freq) ≤ (⌈t / (1 / s.signal_freq)⌉ : ℝ) := Int.le_ceil _
    have h2 : t ≤ (1 / s.signal_freq) * (⌈t / (1 / s.signal_freq)⌉ : ℝ) := by
      calc t = (1 / s.signal_freq) * (t / (1 / s.signal_freq)) := by field_simp
        _ ≤ (1 / s.signal_freq) * (⌈t / (1 / s.signal_freq)⌉ : ℝ) :=
            mul_le_mul_of_nonneg_left h1 hP.le
    linarith
  have hflip : 0 ≤ (1 / s.signal_freq) * s.duty_cycle := mul_nonneg hP.le hd
  simp only [SymmetricRectangularSignal.calculate_signal, List.map_cons, List.map_nil,
    gt_iff_lt]
  rw [if_neg (not_lt.mpr (hoff.trans hflip))]

/-- C10 witness: unit frequency, duty cycle `1/2`, instant `t = -1/2` (not an
integer multiple of the period `1`): the sample reads `+amplitude = 5`. -/
theorem claim_C10_witness :
    (SymmetricRectangularSignal.mk 1 1 0 5 (1/2)).calculate_signal [-(1/2)] =
      [⟨-(1/2), 5⟩] :=
  claim_C10 (SymmetricRectangularSignal.mk 1 1 0 5 (1/2)) (-(1/2)) (by norm_num)
    (by norm_num)
    (by
      rintro ⟨k, hk⟩
      norm_num at hk
      have h2 : ((2 * k : ℤ) : ℝ) = -1 := by push_cast; linarith
      have h3 : (2 * k : ℤ) = -1 := by exact_mod_cast h2
      omega)
    (by norm_num)

/-- The pulse scan loop seeded with a current best `t0` (whose distance is
already recorded): the value of `smallest_diff_time` after the remaining
points are processed. -/
noncomputable def pulseRun (target : ℝ) (pts : List ℝ) (t0 : ℝ) : ℝ :=
  (pts.foldl (pulseStep target) (some |target - t0|, t0)).2

theorem pulseRun_nil (target t0 : ℝ) : pulseRun target [] t0 = t0 := rfl

theorem pulseRun_cons (target p t0 : ℝ) (rest : List ℝ) :
    pulseRun target (p :: rest) t0 =
      if |target - p| < |target - t0| then pulseRun target rest p
      else pulseRun target rest t0 := by
  by_cases h : |target - p| < |target - t0|
  · simp [pulseRun, pulseStep, h]
  · simp [pulseRun, pulseStep, h]

theorem pulseRun_le (target : ℝ) (pts : List ℝ) :
    ∀ t0, |target - pulseRun target pts t0| ≤ |target - t0| := by
  induction pts with
  | nil =>
    intro t0
    rw [pulseRun_nil]
  | cons p rest ih =>
    intro t0
    rw [pulseRun_cons]
    by_cases h : |target - p| < |target - t0|
    · rw [if_pos h]
      exact le_trans (ih p) h.le
    · rw [if_neg h]
      exact ih t0

theorem pulseRun_min (target : ℝ) (pts : List ℝ) :
    ∀ t0, ∀ q ∈ pts, |target - pulseRun target pts t0| ≤ |target - q| := by
  induction pts with
  | nil =>
    intro t0 q hq
    exact absurd hq (List.not_mem_nil q)
  | cons p rest ih =>
    intro t0 q hq
    rw [pulseRun_cons]
    rcases List.mem_cons.mp hq with rfl | hq2
    · by_cases h : |target - q| < |target - t0|
      · rw [if_pos h]
        exact pulseRun_le target rest q
      · rw [if_neg h]
        exact le_trans (pulseRun_le target rest t0) (not_lt.mp h)
    · by_cases h : |target - p| < |target - t0|
      · rw [if_pos h]
        exact ih p q hq2
      · rw [if_neg h]
        exact ih t0 q hq2

theorem pulseRun_first (target : ℝ) (pts : List ℝ) :
    ∀ t0, pulseRun target pts t0 = t0 ∨
      ∃ i, ∃ hi : i < pts.length,
        pts.get ⟨i, hi⟩ = pulseRun target pts t0 ∧
        |target - pulseRun target pts t0| < |target - t0| ∧
        ∀ j (hj : j < pts.length), j < i →
          |target - pulseRun target pts t0| < |target - pts.get ⟨j, hj⟩| := by
  induction pts with
  | nil =>
    intro t0
    exact Or.inl (pulseRun_nil target t0)
  | cons p rest ih =>
    intro t0
    rw [pulseRun_cons]
    by_cases h : |target - p| < |target - t0|
    · rw [if_pos h]
      right
      rcases ih p with h0 | ⟨i, hi, hget, hlt, hearl⟩
      · refine ⟨0, by simp, ?_, ?_, ?_⟩
        · exact h0.symm
        · rw [h0]
          exact h
        · intro j hj hj0
          omega
      · refine ⟨i + 1, by simp only [List.length_cons]; omega, ?_, ?_, ?_⟩
        · exact hget
        · exact lt_trans hlt h
        · intro j hj hji
          cases j with
          | zero => exact hlt
          | succ j2 =>
            have hj2 : j2 < rest.length := by
              simp only [List.length_cons] at hj
              omega
            exact hearl j2 hj2 (by omega)
    · rw [if_neg h]
      rcases ih t0 with h0 | ⟨i, hi, hget, hlt, hearl⟩
      · exact Or.inl h0
      · right
        refine ⟨i + 1, by simp only [List.length_cons]; omega, hget, hlt, ?_⟩
        intro j hj hji
        cases j with
        | zero => exact lt_of_lt_of_le hlt (not_lt.mp h)
        | succ j2 =>
          have hj2 : j2 < rest.length := by
            simp only [List.length_cons] at hj
            omega
          exact hearl j2 hj2 (by omega)

theorem smallest_diff_time_spec (s : UnitPulse) (p0 : ℝ) (rest : List ℝ) :
    ∃ i, ∃ hi : i < (p0 :: rest).length,
      (p0 :: rest).get ⟨i, hi⟩ = s.smallest_diff_time (p0 :: rest) ∧
      (∀ q ∈ p0 :: rest,
        |s.start_offset + s.time_offset - s.smallest_diff_time (p0 :: rest)| ≤
          |s.start_offset + s.time_offset - q|) ∧
      ∀ j (hj : j < (p0 :: rest).length), j < i →
        |s.start_offset + s.time_offset - s.smallest_diff_time (p0 :: rest)| <
          |s.start_offset + s.time_offset - (p0 :: rest).get ⟨j, hj⟩| := by
  have hrw : s.smallest_diff_time (p0 :: rest) =
      pulseRun (s.start_offset + s.time_offset) rest p0 := by
    simp [UnitPulse.smallest_diff_time, pulseRun, pulseStep]
  rw [hrw]
  rcases pulseRun_first (s.start_offset + s.time_offset) rest p0 with h0 | ⟨i, hi, hget, hlt, hearl⟩
  · refine ⟨0, by simp, h0.symm, ?_, ?_⟩
    · intro q hq
      rcases List.mem_cons.mp hq with rfl | hq2
      · rw [h0]
      · exact pulseRun_min (s.start_offset + s.time_offset) rest p0 q hq2
    · intro j hj hj0
      omega
  · refine ⟨i + 1, by simp only [List.length_cons]; omega, hget, ?_, ?_⟩
    · intro q hq
      rcases List.mem_cons.mp hq with rfl | hq2
      · exact hlt.le
      · exact pulseRun_min (s.start_offset + s.time_offset) rest p0 q hq2
    · intro j hj hji
      cases j with
      | zero => exact hlt
      | succ j2 =>
        have hj2 : j2 < rest.length := by
          simp only [List.length_cons] at hj
          omega
        exact hearl j2 hj2 (by omega)

/-- C6 counterexample: the unit pulse over the *empty* grid produces an empty
output, so no sample at all carries `amplitude` — the claim's "exactly one
sample carries amplitude" fails for the empty grid. -/
theorem claim_C6_counterexample :
    (UnitPulse.new 0 1 0 1).calculate_signal [] = [] ∧
      ¬ ∃ c ∈ (UnitPulse.new 0 1 0 1).calculate_signal [],
        c.y = (UnitPulse.new 0 1 0 1).amplitude := by
  refine ⟨rfl, ?_⟩
  simp [UnitPulse.new, UnitPulse.calculate_signal]

/-- C6 (amended): for every *nonempty* grid of pairwise-distinct sampling
points (time grids are strictly increasing, hence nonduplicated), there is
exactly one position — an instant of minimum absolute distance to the target
`start_offset + time_offset`, every strictly earlier instant having strictly
larger distance, so the earliest argmin wins ties — whose sample carries
`amplitude`, while every other position carries `0`, each sample keeping its
instant as time. -/
theorem claim_C6_amended (s : UnitPulse) (pts : List ℝ) (hne : pts ≠ []) (hnd : pts.Nodup) :
    ∃ i, ∃ hi : i < pts.length,
      (∀ q ∈ pts, |s.start_offset + s.time_offset - pts.get ⟨i, hi⟩| ≤
        |s.start_offset + s.time_offset - q|) ∧
      (∀ j (hj : j < pts.length), j < i →
        |s.start_offset + s.time_offset - pts.get ⟨i, hi⟩| <
          |s.start_offset + s.time_offset - pts.get ⟨j, hj⟩|) ∧
      (s.calculate_signal pts).length = pts.length ∧
      ∀ j (hj : j < pts.length) (hj2 : j < (s.calculate_signal pts).length),
        (s.calculate_signal pts).get ⟨j, hj2⟩ =
          ⟨pts.get ⟨j, hj⟩, if j = i then s.amplitude else 0⟩ := by
  obtain ⟨p0, rest, rfl⟩ := List.exists_cons_of_ne_nil hne
  obtain ⟨i, hi, hget, hmin, hearl⟩ := smallest_diff_time_spec s p0 rest
  refine ⟨i, hi, ?_, ?_, ?_, ?_⟩
  · intro q hq
    rw [hget]
    exact hmin q hq
  · intro j hj hji
    rw [hget]
    exact hearl j hj hji
  · simp [UnitPulse.calculate_signal]
  · intro j hj hj2
    have hmap : (s.calculate_signal (p0 :: rest)).get ⟨j, hj2⟩ =
        CoordPair.mk ((p0 :: rest).get ⟨j, hj⟩)
          (if (p0 :: rest).get ⟨j, hj⟩ = s.smallest_diff_time (p0 :: rest) then s.amplitude
            else 0) := by
      simp only [UnitPulse.calculate_signal, List.get_eq_getElem, List.getElem_map]
    rw [hmap]
    have hiff : ((p0 :: rest).get ⟨j, hj⟩ = s.smallest_diff_time (p0 :: rest)) ↔ j = i := by
      rw [← hget]
      constructor
      · intro hh
        have hfin : (⟨j, hj⟩ : Fin (p0 :: rest).length) = ⟨i, hi⟩ :=
          (List.Nodup.get_inj_iff hnd).mp hh
        exact congrArg Fin.val hfin
      · rintro rfl
        rfl
    rw [if_congr hiff rfl rfl]

/-- C6 witness: target `3` over the nonempty, duplicate-free grid
`[0, 4, 10]`: the amended exactly-one-pulse property holds there. -/
theorem claim_C6_witness :
    ∃ i, ∃ hi : i < ([0, 4, 10] : List ℝ).length,
      (∀ q ∈ ([0, 4, 10] : List ℝ),
        |(UnitPulse.new 3 1 0 1).start_offset + (UnitPulse.new 3 1 0 1).time_offset -
            ([0, 4, 10] : List ℝ).get ⟨i, hi⟩| ≤
          |(UnitPulse.new 3 1 0 1).start_offset + (UnitPulse.new 3 1 0 1).time_offset - q|) ∧
      (∀ j (hj : j < ([0, 4, 10] : List ℝ).length), j < i →
        |(UnitPulse.new 3 1 0 1).start_offset + (UnitPulse.new 3 1 0 1).time_offset -
            ([0, 4, 10] : List ℝ).get ⟨i, hi⟩| <
          |(UnitPulse.new 3 1 0 1).start_offset + (UnitPulse.new 3 1 0 1).time_offset -
            ([0, 4, 10] : List ℝ).get ⟨j, hj⟩|) ∧
      ((UnitPulse.new 3 1 0 1).calculate_signal [0, 4, 10]).length =
        ([0, 4, 10] : List ℝ).length ∧
      ∀ j (hj : j < ([0, 4, 10] : List ℝ).length)
        (hj2 : j < ((UnitPulse.new 3 1 0 1).calculate_signal [0, 4, 10]).length),
        ((UnitPulse.new 3 1 0 1).calculate_signal [0, 4, 10]).get ⟨j, hj2⟩ =
          ⟨([0, 4, 10] : List ℝ).get ⟨j, hj⟩,
            if j = i then (UnitPulse.new 3 1 0 1).amplitude else 0⟩ :=
  claim_C6_amended (UnitPulse.new 3 1 0 1) [0, 4, 10] (by simp)
    (by norm_num [List.nodup_cons])
